import Mathlib

/-!
Verification of the reconciliation ("apply") engine of hvresult.

This file gives a shallow embedding of `internal/gitops/apply.go`:
the local tree reader results, the remote Vault state, the mount-type
classifier, the diff computation (to-write / to-delete sets), the
bounded batch executor (errgroup) modelled as a sequential runner that
attempts every operation and keeps the first error, and the two
reconciliation phases `applyPolicyChanges` / `applyAuthChanges`
sequenced by `ApplyChanges`.
-/

namespace HVResult

/-- Association-list lookup, first match wins (models Go map lookup:
the lists we build have unique keys). -/
def alookup {α β : Type} [DecidableEq α] (k : α) : List (α × β) → Option β
  | [] => none
  | q :: qs => if q.1 = k then some q.2 else alookup k qs

/-- Association-list insert-or-replace (models Go map assignment `m[k] = v`). -/
def insertA {α β : Type} [DecidableEq α] (m : List (α × β)) (k : α) (v : β) :
    List (α × β) :=
  if (alookup k m).isSome then m.map (fun q => if q.1 = k then (k, v) else q)
  else m ++ [(k, v)]

/-- Association-list erase (models removal of the object named `k`). -/
def eraseA {α β : Type} [DecidableEq α] (m : List (α × β)) (k : α) :
    List (α × β) :=
  m.filter (fun q => decide (q.1 ≠ k))

/-- Fold a sequence of insert-or-replace updates over an accumulator. -/
def writeAll {α β : Type} [DecidableEq α] (entries : List (α × β))
    (acc : List (α × β)) : List (α × β) :=
  entries.foldl (fun m e => insertA m e.1 e.2) acc

/-- Build a Go map from the file entries visited by a directory walk,
in visit order (`localPolicies[policyName] = string(content)`). -/
def buildMap {α β : Type} [DecidableEq α] (entries : List (α × β)) :
    List (α × β) :=
  writeAll entries []

/-- Fold a sequence of erasures over an accumulator. -/
def deleteAll {α β : Type} [DecidableEq α] (names : List α)
    (acc : List (α × β)) : List (α × β) :=
  names.foldl (fun m n => eraseA m n) acc

/-- Outcome of `filepath.WalkDir` over a local directory tree:
the root may be missing (`os.IsNotExist`), the walk may fail (file read
or JSON unmarshal error), or it yields the visited (basename, content)
leaf entries in visit order. -/
inductive WalkResult : Type where
  | notExist : WalkResult
  | fail (msg : String) : WalkResult
  | ok (entries : List (String × String)) : WalkResult
deriving DecidableEq, Repr

/-- The local checkout: the policy directory walk outcome, and for each
(mount name, role path segment) the walk outcome of
`authDirectory/<mount>/<segment>`. -/
structure LocalTree : Type where
  policyDir : WalkResult
  authDir : String → String → WalkResult

/-- Remote Vault state: the ACL policies (name ↦ body) and the
role-like objects keyed by (mount, path segment, object name). -/
structure VaultState : Type where
  policies : List (String × String)
  roles : List ((String × String × String) × String)
deriving DecidableEq, Repr

/-- Behaviour of the remote API calls: injectable listing errors and
per-object mutation failures.  An all-`none` / all-`false` backend is a
healthy Vault server. -/
structure Backend : Type where
  listPoliciesErr : Option String
  putPolicyFails : String → Bool
  deletePolicyFails : String → Bool
  listAuthResult : Except String (List (String × String))
  listRolesErr : String → String → Option String
  writeRoleFails : String → String → String → Bool
  deleteRoleFails : String → String → String → Bool

/-- Every remote call succeeds: no listing errors and no mutation failures. -/
def Backend.allOk (b : Backend) : Prop :=
  b.listPoliciesErr = none ∧
  (∀ n, b.putPolicyFails n = false) ∧
  (∀ n, b.deletePolicyFails n = false) ∧
  (∃ ms, b.listAuthResult = Except.ok ms) ∧
  (∀ m p, b.listRolesErr m p = none) ∧
  (∀ m p n, b.writeRoleFails m p n = false) ∧
  (∀ m p n, b.deleteRoleFails m p n = false)

/-- `strings.TrimSuffix(mountName, "/")`: drop one trailing slash if present. -/
def trimSlash (s : String) : String :=
  if s.data.getLast? = some '/' then String.mk s.data.dropLast else s

/-- The mount classifier: the `switch mount.Type` in `applyAuthChanges`
mapping a mount's declared type to the path segment of its role-like
objects; `none` models the `default:` skip-with-warning branch. -/
def rolePathPrefix (t : String) : Option String :=
  if t = "aws" ∨ t = "gcp" then some "roles"
  else if t = "azure" ∨ t = "kubernetes" ∨ t = "oidc" ∨ t = "oci" ∨
      t = "saml" ∨ t = "approle" then some "role"
  else if t = "kerberos" then some "groups"
  else if t = "ldap" ∨ t = "okta" then some "groups"
  else if t = "radius" then some "users"
  else if t = "token" then some "roles"
  else none

/-- The mount types the classifier recognises. -/
def supportedMountTypes : List String :=
  ["aws", "gcp", "azure", "kubernetes", "oidc", "oci", "saml", "approle",
   "kerberos", "ldap", "okta", "radius", "token"]

/-- The role names present in one (mount, segment) section of a role list. -/
def listRolesL (roles : List ((String × String × String) × String)) (m p : String) :
    List String :=
  (roles.filter (fun r => decide (r.1.1 = m ∧ r.1.2.1 = p))).map
    (fun r => r.1.2.2)

/-- Names listed by `vc.Logical().List` under `auth/<m>/<p>`: the role
names currently present in that section of the remote state. -/
def listRoles (st : VaultState) (m p : String) : List String :=
  listRolesL st.roles m p

/-- The role entries of one mount section, keyed by full triple. -/
def roleEntries (m p : String) (localRoles : List (String × String)) :
    List ((String × String × String) × String) :=
  localRoles.map (fun nd => ((m, p, nd.1), nd.2))

/-- The policy to-delete set: remote names with no local counterpart,
with the protected names `root` and `default` skipped
(`if existingPolicy == "root" || existingPolicy == "default" { continue }`). -/
def policyDeletes (existing : List String) (localPolicies : List (String × String)) :
    List String :=
  existing.filter (fun n =>
    if n = "root" ∨ n = "default" then false
    else (alookup n localPolicies).isNone)

/-- The role to-delete set for one mount: remote role names with no
local counterpart; no protected names here. -/
def roleDeletes (existing : List String) (localRoles : List (String × String)) :
    List String :=
  existing.filter (fun n => (alookup n localRoles).isNone)

/-- One remote mutation submitted to an errgroup batch. -/
inductive VOp : Type where
  | putPolicy (name content : String) : VOp
  | delPolicy (name : String) : VOp
  | writeRole (mount seg name data : String) : VOp
  | delRole (mount seg name : String) : VOp
deriving DecidableEq, Repr

/-- The batch built by the policy phase: a `PutPolicy` for every local
entry, then a `DeletePolicy` for every remote name absent locally and
not protected. -/
def policyOps (localPolicies : List (String × String)) (existing : List String) :
    List VOp :=
  localPolicies.map (fun nc => VOp.putPolicy nc.1 nc.2) ++
    (policyDeletes existing localPolicies).map (fun n => VOp.delPolicy n)

/-- The batch built for one auth mount: a write for every local role,
then a delete for every remote role name absent locally. -/
def mountOps (m p : String) (localRoles : List (String × String))
    (existing : List String) : List VOp :=
  localRoles.map (fun nd => VOp.writeRole m p nd.1 nd.2) ++
    (roleDeletes existing localRoles).map (fun n => VOp.delRole m p n)

/-- Whether the backend makes a given remote mutation fail. -/
def opFails (b : Backend) : VOp → Bool
  | VOp.putPolicy n _ => b.putPolicyFails n
  | VOp.delPolicy n => b.deletePolicyFails n
  | VOp.writeRole m p n _ => b.writeRoleFails m p n
  | VOp.delRole m p n => b.deleteRoleFails m p n

/-- The wrapped error message a failing mutation produces. -/
def opErrMsg : VOp → String
  | VOp.putPolicy n _ => "error writing policy " ++ n ++ " to Vault"
  | VOp.delPolicy n => "error deleting policy " ++ n ++ " from Vault"
  | VOp.writeRole _ _ n _ => "error writing auth role " ++ n ++ " to Vault"
  | VOp.delRole _ _ n => "error deleting auth role " ++ n ++ " from Vault"

/-- Effect of a successful remote mutation on Vault state. -/
def pureEffect : VOp → VaultState → VaultState
  | VOp.putPolicy n c, st => { st with policies := insertA st.policies n c }
  | VOp.delPolicy n, st => { st with policies := eraseA st.policies n }
  | VOp.writeRole m p n d, st => { st with roles := insertA st.roles (m, p, n) d }
  | VOp.delRole m p n, st => { st with roles := eraseA st.roles (m, p, n) }

/-- Run one submitted operation: a failing call leaves the state alone
and reports its error, a successful call applies its effect. -/
def execOp (b : Backend) (op : VOp) (st : VaultState) :
    VaultState × Option String :=
  if opFails b op then (st, some (opErrMsg op)) else (pureEffect op st, none)

/-- The bounded executor (`errgroup` with `SetLimit(5)` plus `Wait`):
every dispatched operation is attempted — later operations run even
after an earlier failure — and the first observed error, if any, is the
batch result.  Concurrency is modelled by sequential execution, which
is adequate because the operations of one batch target disjoint names. -/
def runOps {σ : Type} : List (σ → σ × Option String) → σ → σ × Option String
  | [], st => (st, none)
  | op :: rest, st =>
    let r := op st
    let rr := runOps rest r.1
    (rr.1, match r.2 with
           | some e => some e
           | none => rr.2)

/-- The state after attempting every operation of a batch, failures
included (a failing call has no remote effect). -/
def opsEffect {σ : Type} : List (σ → σ × Option String) → σ → σ
  | [], st => st
  | op :: rest, st => opsEffect rest (op st).1

/-- The per-operation results of a batch, in dispatch order. -/
def opResults {σ : Type} : List (σ → σ × Option String) → σ → List (Option String)
  | [], _ => []
  | op :: rest, st => (op st).2 :: opResults rest (op st).1

/-- First error among a list of operation results. -/
def firstSome : List (Option String) → Option String
  | [] => none
  | o :: os =>
    match o with
    | some e => some e
    | none => firstSome os

/-- Pure composite effect of a batch of operations (every one succeeds). -/
def applyOpsPure (ops : List VOp) (st : VaultState) : VaultState :=
  ops.foldl (fun s op => pureEffect op s) st

/-- `applyPolicyChanges`: list remote policies, walk the local policy
directory (a walk error — including a missing root directory, for which
there is no `os.IsNotExist` tolerance here — aborts the phase), then
run the write/delete batch. -/
def applyPolicyChanges (b : Backend) (lt : LocalTree) (st : VaultState) :
    VaultState × Option String :=
  match b.listPoliciesErr with
  | some e => (st, some ("error listing existing policies from Vault: " ++ e))
  | none =>
    match lt.policyDir with
    | WalkResult.notExist =>
      (st, some "error walking policy directory: file does not exist")
    | WalkResult.fail e => (st, some ("error walking policy directory: " ++ e))
    | WalkResult.ok entries =>
      runOps ((policyOps (buildMap entries) (st.policies.map Prod.fst)).map
        (execOp b)) st

/-- The local role map for one mount section: walk
`authDirectory/<m>/<p>`; a missing directory is treated as zero entries
(`err != nil && !os.IsNotExist(err)`). -/
def localRolesFor (lt : LocalTree) (m p : String) : List (String × String) :=
  match lt.authDir m p with
  | WalkResult.ok entries => buildMap entries
  | _ => []

/-- Reconcile one (mount, segment) section: walk the local role
directory (a genuine walk failure aborts, a missing directory yields
zero entries), list the remote roles of the section (deduplicated into
a set, as the Go code collects them into a map), then run the
write/delete batch. -/
def processMountSection (b : Backend) (lt : LocalTree) (m p : String)
    (st : VaultState) : VaultState × Option String :=
  match lt.authDir m p with
  | WalkResult.fail e =>
    (st, some ("error walking local auth mount directory " ++ m ++ ": " ++ e))
  | _ =>
    match b.listRolesErr m p with
    | some e =>
      (st, some ("error listing existing roles for mount " ++ m ++
        " from Vault: " ++ e))
    | none =>
      runOps ((mountOps m p (localRolesFor lt m p)
        ((listRoles st m p).dedup)).map (execOp b)) st

/-- The body of the per-mount loop of `applyAuthChanges`: classify the
mount type (skip unsupported with a warning), trim the trailing slash
of the mount name, then reconcile its section. -/
def processMount (b : Backend) (lt : LocalTree) (mountName mountType : String)
    (st : VaultState) : VaultState × Option String :=
  match rolePathPrefix mountType with
  | none => (st, none)
  | some p => processMountSection b lt (trimSlash mountName) p st

/-- Process the auth mounts in order; the first mount whose processing
errors aborts the remaining mounts. -/
def applyAuthMounts (b : Backend) (lt : LocalTree) :
    List (String × String) → VaultState → VaultState × Option String
  | [], st => (st, none)
  | mt :: rest, st =>
    match processMount b lt mt.1 mt.2 st with
    | (st', none) => applyAuthMounts b lt rest st'
    | (st', some e) => (st', some e)

/-- `applyAuthChanges`: list the auth mounts, then reconcile each. -/
def applyAuthChanges (b : Backend) (lt : LocalTree) (st : VaultState) :
    VaultState × Option String :=
  match b.listAuthResult with
  | Except.error e => (st, some ("error listing auth mounts from Vault: " ++ e))
  | Except.ok mounts => applyAuthMounts b lt mounts st

/-- `ApplyChanges`: the policy phase first; on its error the auth phase
is not executed and the error is wrapped with phase context. -/
def ApplyChanges (b : Backend) (lt : LocalTree) (st : VaultState) :
    VaultState × Option String :=
  match applyPolicyChanges b lt st with
  | (st', some e) => (st', some ("error applying policy changes: " ++ e))
  | (st', none) =>
    match applyAuthChanges b lt st' with
    | (st'', some e) => (st'', some ("error applying auth changes: " ++ e))
    | (st'', none) => (st'', none)

/-- The remote calls used by the auth phase all succeed. -/
def mountOk (b : Backend) : Prop :=
  (∀ m p, b.listRolesErr m p = none) ∧
  (∀ m p n, b.writeRoleFails m p n = false) ∧
  (∀ m p n, b.deleteRoleFails m p n = false)

/-- No local role directory walk fails with a genuine I/O or decode
error (`notExist` is fine). -/
def noWalkFail (lt : LocalTree) : Prop :=
  ∀ m p e, lt.authDir m p ≠ WalkResult.fail e

/-- The policy map of the remote state is a fixed point of the policy
phase for the given local map: every remote policy either carries its
local content or is a protected leftover, and every local policy is
present remotely. -/
def policyFixed (localPolicies pols : List (String × String)) : Prop :=
  (∀ q ∈ pols, alookup q.1 localPolicies = some q.2 ∨
    (alookup q.1 localPolicies = none ∧ (q.1 = "root" ∨ q.1 = "default"))) ∧
  (∀ nc ∈ localPolicies, (alookup nc.1 pols).isSome = true)

/-- One (mount, segment) section of the remote role list matches the
local role map exactly. -/
def sectionExact (localRoles : List (String × String)) (m p : String)
    (roles : List ((String × String × String) × String)) : Prop :=
  (∀ r ∈ roles, r.1.1 = m → r.1.2.1 = p → alookup r.1.2.2 localRoles = some r.2) ∧
  (∀ nd ∈ localRoles, (alookup (m, p, nd.1) roles).isSome = true)

/-- Every supported mount of the list has its remote section in exact
correspondence with its local role map. -/
def mountsFixed (lt : LocalTree) (mounts : List (String × String))
    (roles : List ((String × String × String) × String)) : Prop :=
  ∀ mt ∈ mounts, ∀ p, rolePathPrefix mt.2 = some p →
    sectionExact (localRolesFor lt (trimSlash mt.1) p) (trimSlash mt.1) p roles

/-- Operations issued by the policy phase. -/
def isPolicyOp : VOp → Prop
  | VOp.putPolicy _ _ => True
  | VOp.delPolicy _ => True
  | VOp.writeRole _ _ _ _ => False
  | VOp.delRole _ _ _ => False

/-- Operations issued by the auth phase. -/
def isRoleOp : VOp → Prop
  | VOp.putPolicy _ _ => False
  | VOp.delPolicy _ => False
  | VOp.writeRole _ _ _ _ => True
  | VOp.delRole _ _ _ => True

/-! ### Concrete fixtures used by the witnesses -/

/-- A healthy backend: one `approle` mount, no failures. -/
def bOk : Backend :=
  { listPoliciesErr := none
    putPolicyFails := fun _ => false
    deletePolicyFails := fun _ => false
    listAuthResult := Except.ok [("approle/", "approle")]
    listRolesErr := fun _ _ => none
    writeRoleFails := fun _ _ _ => false
    deleteRoleFails := fun _ _ _ => false }

/-- A local checkout with two policies and one approle role. -/
def ltEx : LocalTree :=
  { policyDir := WalkResult.ok [("p1", "bodyA"), ("p2", "bodyB")]
    authDir := fun m p =>
      if m = "approle" ∧ p = "role" then WalkResult.ok [("r1", "dataA")]
      else WalkResult.notExist }

/-- A remote state with a stale policy, a stale role, and the protected
policies present. -/
def stEx : VaultState :=
  { policies := [("p1", "old"), ("p3", "stale"), ("root", "rootpol"),
      ("default", "defpol")]
    roles := [(("approle", "role", "r9"), "olddata")] }

/-- The state after the policy phase runs on the fixture. -/
def st1Ex : VaultState := (applyPolicyChanges bOk ltEx stEx).1

/-- A checkout whose policy directory is missing entirely. -/
def ltMissingPolicy : LocalTree :=
  { policyDir := WalkResult.notExist
    authDir := fun _ _ => WalkResult.notExist }

/-- A backend whose policy listing fails. -/
def bListFail : Backend :=
  { bOk with listPoliciesErr := some "connection refused" }

/-- A small batch over `Nat` with a failing middle operation. -/
def opsEx : List (Nat → Nat × Option String) :=
  [fun n => (n + 1, none),
   fun n => (n, some "op failed"),
   fun n => (n + 10, none)]

/-- A local checkout that overwrites the protected `root` policy. -/
def ltRoot : LocalTree :=
  { policyDir := WalkResult.ok [("root", "newroot"), ("p1", "b")]
    authDir := fun _ _ => WalkResult.notExist }

/-! ### Association-list lemmas -/

section AList

variable {α β : Type} [DecidableEq α]

theorem alookup_isSome_iff (k : α) (m : List (α × β)) :
    (alookup k m).isSome = true ↔ k ∈ m.map Prod.fst := by
  induction m with
  | nil => simp [alookup]
  | cons q qs ih =>
    by_cases h : q.1 = k
    · simp [alookup, h]
    · simp [alookup, h, ih, Ne.symm h]

theorem alookup_none_iff (k : α) (m : List (α × β)) :
    alookup k m = none ↔ k ∉ m.map Prod.fst := by
  rw [← alookup_isSome_iff]
  cases alookup k m <;> simp

theorem alookup_eq_some_mem (k : α) (v : β) (m : List (α × β))
    (h : alookup k m = some v) : (k, v) ∈ m := by
  induction m with
  | nil => simp [alookup] at h
  | cons q qs ih =>
    by_cases hq : q.1 = k
    · simp only [alookup, hq, if_true, Option.some.injEq] at h
      have hqe : q = (k, v) := by rw [← hq, ← h]
      rw [← hqe]
      exact List.mem_cons_self q qs
    · simp only [alookup, hq, if_false] at h
      exact List.mem_cons_of_mem q (ih h)

theorem mem_alookup_of_nodup (q : α × β) (m : List (α × β))
    (hnd : (m.map Prod.fst).Nodup) (hq : q ∈ m) : alookup q.1 m = some q.2 := by
  induction m with
  | nil => simp at hq
  | cons r rs ih =>
    simp only [List.map_cons, List.nodup_cons] at hnd
    rcases List.mem_cons.mp hq with rfl | hmem
    · simp [alookup]
    · have hne : r.1 ≠ q.1 := by
        intro h
        exact hnd.1 (h ▸ List.mem_map_of_mem Prod.fst hmem)
      simp [alookup, hne, ih hnd.2 hmem]

theorem alookup_map_replace (k k' : α) (v : β) (m : List (α × β)) :
    alookup k (m.map (fun q => if q.1 = k' then (k', v) else q)) =
      if k = k' then (alookup k m).map (fun _ => v) else alookup k m := by
  induction m with
  | nil => by_cases hk : k = k' <;> simp [alookup, hk]
  | cons q qs ih =>
    by_cases hq : q.1 = k'
    · by_cases hk : k = k'
      · subst hk
        simp [alookup, hq, ih]
      · have h1 : ¬ (k' = k) := fun h => hk h.symm
        have h2 : ¬ (q.1 = k) := by rw [hq]; exact h1
        simp [alookup, hq, h1, h2, ih, hk]
    · by_cases hqk : q.1 = k
      · have hk : ¬ (k = k') := by
          intro h
          exact hq (by rw [hqk, h])
        simp [alookup, hq, hqk, hk]
      · simp only [List.map_cons, if_neg hq, alookup, if_neg hqk, ih]

theorem alookup_insertA (k k' : α) (v : β) (m : List (α × β)) :
    alookup k (insertA m k' v) = if k' = k then some v else alookup k m := by
  unfold insertA
  by_cases hs : (alookup k' m).isSome = true
  · rw [if_pos hs, alookup_map_replace]
    by_cases hk : k = k'
    · subst hk
      obtain ⟨w, hw⟩ := Option.isSome_iff_exists.mp hs
      simp [hw]
    · have h1 : ¬ (k' = k) := fun h => hk h.symm
      simp [hk, h1]
  · rw [if_neg hs]
    have hnone : alookup k' m = none := by
      cases h : alookup k' m
      · rfl
      · exact absurd (by simp [h]) hs
    by_cases hk : k' = k
    · subst hk
      rw [if_pos rfl]
      induction m with
      | nil => simp [alookup]
      | cons q qs ih =>
        by_cases hq : q.1 = k'
        · simp [alookup, hq] at hnone
        · simp only [alookup, hq, if_false] at hnone
          simpa [alookup, hq] using ih (by simpa [alookup, hq] using hs) hnone
    · rw [if_neg hk]
      induction m with
      | nil => simp [alookup, hk]
      | cons q qs ih =>
        by_cases hq : q.1 = k
        · simp [alookup, hq]
        · simp only [alookup, hq, if_false] at hnone ⊢
          by_cases hq' : q.1 = k'
          · simp [alookup, hq'] at hnone
          · simp only [alookup, hq', if_false] at hnone hs
            exact ih (by simpa using hs) hnone

theorem alookup_eraseA (k k' : α) (m : List (α × β)) :
    alookup k (eraseA m k') = if k' = k then none else alookup k m := by
  induction m with
  | nil => by_cases h : k' = k <;> simp [alookup, eraseA, h]
  | cons q qs ih =>
    simp only [eraseA, ne_eq, decide_not] at ih ⊢
    rw [List.filter_cons]
    by_cases hq : q.1 = k'
    · rw [if_neg (by simp [hq]), ih]
      by_cases hk : k' = k
      · simp [hk]
      · have hqk : ¬ (q.1 = k) := by rw [hq]; exact hk
        simp [hk, alookup, hqk]
    · rw [if_pos (by simp [hq])]
      by_cases hqk : q.1 = k
      · have hk : ¬ (k' = k) := fun h => hq (by rw [hqk, h])
        simp [alookup, hqk, hk]
      · simp [alookup, hqk, ih]

theorem mem_eraseA (q : α × β) (m : List (α × β)) (k : α) :
    q ∈ eraseA m k ↔ q ∈ m ∧ q.1 ≠ k := by
  simp [eraseA, List.mem_filter]

theorem mem_insertA (q : α × β) (m : List (α × β)) (k : α) (v : β)
    (h : q ∈ insertA m k v) : q = (k, v) ∨ (q ∈ m ∧ q.1 ≠ k) := by
  unfold insertA at h
  by_cases hs : (alookup k m).isSome = true
  · rw [if_pos hs] at h
    obtain ⟨orig, ho, heq⟩ := List.mem_map.mp h
    by_cases h1 : orig.1 = k
    · left
      rw [← heq]
      simp [h1]
    · right
      rw [← heq]
      simp only [h1, if_false]
      exact ⟨ho, h1⟩
  · rw [if_neg hs] at h
    rcases List.mem_append.mp h with h' | h'
    · right
      refine ⟨h', fun hk => ?_⟩
      have : (alookup k m).isSome = true :=
        (alookup_isSome_iff k m).mpr (hk ▸ List.mem_map_of_mem Prod.fst h')
      exact hs this
    · left
      simpa using h'

end AList

/-! ### Fold-level lemmas about batches of inserts and erasures -/

section Folds

variable {α β : Type} [DecidableEq α]

theorem keys_map_replace (k : α) (v : β) (m : List (α × β)) :
    (m.map (fun q => if q.1 = k then (k, v) else q)).map Prod.fst =
      m.map Prod.fst := by
  induction m with
  | nil => rfl
  | cons q qs ih =>
    by_cases h : q.1 = k <;> simp [h, ih]

theorem nodupKeys_insertA (m : List (α × β)) (k : α) (v : β)
    (h : (m.map Prod.fst).Nodup) : ((insertA m k v).map Prod.fst).Nodup := by
  unfold insertA
  by_cases hs : (alookup k m).isSome = true
  · rw [if_pos hs, keys_map_replace]
    exact h
  · rw [if_neg hs, List.map_append]
    simp only [List.map_cons, List.map_nil]
    rw [List.nodup_append]
    refine ⟨h, by simp, ?_⟩
    rw [List.disjoint_singleton]
    intro hk
    exact hs ((alookup_isSome_iff k m).mpr hk)

theorem writeAll_nil (acc : List (α × β)) : writeAll [] acc = acc := rfl

theorem writeAll_cons (e : α × β) (rest : List (α × β)) (acc : List (α × β)) :
    writeAll (e :: rest) acc = writeAll rest (insertA acc e.1 e.2) := rfl

theorem deleteAll_nil (acc : List (α × β)) : deleteAll ([] : List α) acc = acc := rfl

theorem deleteAll_cons (n : α) (ns : List α) (acc : List (α × β)) :
    deleteAll (n :: ns) acc = deleteAll ns (eraseA acc n) := rfl

theorem nodupKeys_writeAll (entries acc : List (α × β))
    (h : (acc.map Prod.fst).Nodup) : ((writeAll entries acc).map Prod.fst).Nodup := by
  induction entries generalizing acc with
  | nil => exact h
  | cons e rest ih =>
    rw [writeAll_cons]
    exact ih _ (nodupKeys_insertA _ _ _ h)

theorem buildMap_nodupKeys (entries : List (α × β)) :
    ((buildMap entries).map Prod.fst).Nodup :=
  nodupKeys_writeAll entries [] (by simp)

theorem alookup_writeAll_of_none (k : α) (entries acc : List (α × β))
    (h : alookup k entries = none) :
    alookup k (writeAll entries acc) = alookup k acc := by
  induction entries generalizing acc with
  | nil => rfl
  | cons e rest ih =>
    have he : ¬ (e.1 = k) := by
      intro hek
      simp [alookup, hek] at h
    simp only [alookup, he, if_false] at h
    rw [writeAll_cons, ih _ h, alookup_insertA, if_neg he]

theorem alookup_writeAll_of_some (k : α) (v : β) (entries acc : List (α × β))
    (hnd : (entries.map Prod.fst).Nodup) (h : alookup k entries = some v) :
    alookup k (writeAll entries acc) = some v := by
  induction entries generalizing acc with
  | nil => simp [alookup] at h
  | cons e rest ih =>
    simp only [List.map_cons, List.nodup_cons] at hnd
    rw [writeAll_cons]
    by_cases he : e.1 = k
    · simp only [alookup, he, if_true, Option.some.injEq] at h
      have hrest : alookup k rest = none := by
        rw [alookup_none_iff]
        rw [← he]
        exact hnd.1
      rw [alookup_writeAll_of_none _ _ _ hrest, alookup_insertA, if_pos he, h]
    · simp only [alookup, he, if_false] at h
      exact ih _ hnd.2 h

theorem mem_writeAll_weak (q : α × β) (entries acc : List (α × β))
    (hq : q ∈ writeAll entries acc) :
    q.1 ∈ entries.map Prod.fst ∨ q ∈ acc := by
  induction entries generalizing acc with
  | nil => exact Or.inr hq
  | cons e rest ih =>
    rw [writeAll_cons] at hq
    rcases ih _ hq with h | h
    · exact Or.inl (List.mem_cons_of_mem _ h)
    · rcases mem_insertA _ _ _ _ h with h' | h'
      · left
        rw [h']
        exact List.mem_cons_self _ _
      · exact Or.inr h'.1

theorem mem_writeAll (q : α × β) (entries acc : List (α × β))
    (hnd : (entries.map Prod.fst).Nodup) (hq : q ∈ writeAll entries acc) :
    alookup q.1 entries = some q.2 ∨ (alookup q.1 entries = none ∧ q ∈ acc) := by
  induction entries generalizing acc with
  | nil => exact Or.inr ⟨rfl, hq⟩
  | cons e rest ih =>
    simp only [List.map_cons, List.nodup_cons] at hnd
    rw [writeAll_cons] at hq
    rcases ih _ hnd.2 hq with h | h
    · have he : ¬ (e.1 = q.1) := by
        intro hek
        apply hnd.1
        rw [hek, ← alookup_isSome_iff, h]
        rfl
      left
      simp [alookup, he, h]
    · rcases mem_insertA _ _ _ _ h.2 with h' | h'
      · left
        rw [h']
        simp [alookup]
      · right
        have he : ¬ (e.1 = q.1) := fun hek => h'.2 hek.symm
        refine ⟨by simp [alookup, he, h.1], h'.1⟩

theorem mem_deleteAll (q : α × β) (names : List α) (acc : List (α × β)) :
    q ∈ deleteAll names acc ↔ q ∈ acc ∧ q.1 ∉ names := by
  induction names generalizing acc with
  | nil => simp [deleteAll]
  | cons n ns ih =>
    rw [deleteAll_cons, ih]
    simp only [mem_eraseA, List.mem_cons, not_or]
    tauto

theorem alookup_deleteAll (k : α) (names : List α) (acc : List (α × β)) :
    alookup k (deleteAll names acc) = if k ∈ names then none else alookup k acc := by
  induction names generalizing acc with
  | nil => simp [deleteAll]
  | cons n ns ih =>
    rw [deleteAll_cons, ih, alookup_eraseA]
    by_cases hk : k ∈ ns
    · simp [hk]
    · by_cases hn : n = k
      · simp [hk, hn]
      · have : ¬ (k = n) := fun h => hn h.symm
        simp [hk, hn, this]

theorem map_id_of_mem {γ : Type} (l : List γ) (f : γ → γ)
    (h : ∀ x ∈ l, f x = x) : l.map f = l := by
  induction l with
  | nil => rfl
  | cons x xs ih =>
    rw [List.map_cons, h x (List.mem_cons_self _ _),
      ih (fun y hy => h y (List.mem_cons_of_mem _ hy))]

theorem insertA_self (m : List (α × β)) (k : α) (v : β)
    (hs : (alookup k m).isSome = true)
    (hall : ∀ q ∈ m, q.1 = k → q.2 = v) : insertA m k v = m := by
  unfold insertA
  rw [if_pos hs]
  apply map_id_of_mem
  intro q hq
  by_cases hqk : q.1 = k
  · have hv : q.2 = v := hall q hq hqk
    simp only [if_pos hqk]
    rw [← hqk, ← hv]
  · simp only [if_neg hqk]

end Folds

/-! ### Executor lemmas -/

theorem runOps_fst {σ : Type} (ops : List (σ → σ × Option String)) (st : σ) :
    (runOps ops st).1 = opsEffect ops st := by
  induction ops generalizing st with
  | nil => rfl
  | cons op rest ih => simp [runOps, opsEffect, ih]

theorem runOps_snd {σ : Type} (ops : List (σ → σ × Option String)) (st : σ) :
    (runOps ops st).2 = firstSome (opResults ops st) := by
  induction ops generalizing st with
  | nil => rfl
  | cons op rest ih =>
    simp only [runOps, opResults, firstSome]
    cases (op st).2 <;> simp [ih]

theorem firstSome_eq_none_iff (l : List (Option String)) :
    firstSome l = none ↔ ∀ r ∈ l, r = none := by
  induction l with
  | nil => simp [firstSome]
  | cons o os ih =>
    cases o with
    | some e => simp [firstSome]
    | none => simp [firstSome, ih]

theorem runOps_id {σ : Type} (ops : List (σ → σ × Option String)) (st : σ)
    (h : ∀ op ∈ ops, op st = (st, none)) : runOps ops st = (st, none) := by
  induction ops with
  | nil => rfl
  | cons op rest ih =>
    have hop : op st = (st, none) := h op (List.mem_cons_self _ _)
    simp [runOps, hop, ih (fun o ho => h o (List.mem_cons_of_mem _ ho))]

theorem runOps_exec_ok (b : Backend) (ops : List VOp) (st : VaultState)
    (h : ∀ op ∈ ops, opFails b op = false) :
    runOps (ops.map (execOp b)) st = (applyOpsPure ops st, none) := by
  induction ops generalizing st with
  | nil => rfl
  | cons op rest ih =>
    have hop : opFails b op = false := h op (List.mem_cons_self _ _)
    have hrest : ∀ o ∈ rest, opFails b o = false :=
      fun o ho => h o (List.mem_cons_of_mem _ ho)
    have hstep : execOp b op st = (pureEffect op st, none) := by
      simp [execOp, hop]
    simp only [List.map_cons, runOps, hstep, ih (pureEffect op st) hrest]
    rfl

theorem runOps_exec_none (b : Backend) (ops : List VOp) (st st' : VaultState)
    (h : runOps (ops.map (execOp b)) st = (st', none)) :
    (∀ op ∈ ops, opFails b op = false) ∧ st' = applyOpsPure ops st := by
  induction ops generalizing st with
  | nil =>
    simp only [List.map_nil, runOps, Prod.mk.injEq] at h
    exact ⟨by simp, h.1.symm⟩
  | cons op rest ih =>
    by_cases hop : opFails b op = true
    · exfalso
      simp [runOps, execOp, hop] at h
    · have hop' : opFails b op = false := by
        cases hfb : opFails b op
        · rfl
        · exact absurd hfb hop
      have hstep : execOp b op st = (pureEffect op st, none) := by
        simp [execOp, hop']
      simp only [List.map_cons, runOps, hstep] at h
      rw [Prod.mk.eta] at h
      obtain ⟨hfails, hstate⟩ := ih _ h
      refine ⟨?_, ?_⟩
      · intro o ho
        rcases List.mem_cons.mp ho with rfl | ho'
        · exact hop'
        · exact hfails o ho'
      · rw [hstate]
        rfl

theorem applyOpsPure_append (a c : List VOp) (st : VaultState) :
    applyOpsPure (a ++ c) st = applyOpsPure c (applyOpsPure a st) :=
  List.foldl_append _ _ _ _

theorem applyOpsPure_puts (localPolicies : List (String × String)) (st : VaultState) :
    applyOpsPure (localPolicies.map (fun nc => VOp.putPolicy nc.1 nc.2)) st =
      { st with policies := writeAll localPolicies st.policies } := by
  induction localPolicies generalizing st with
  | nil => rfl
  | cons nc rest ih =>
    simp only [List.map_cons, applyOpsPure, List.foldl_cons]
    rw [show (List.foldl (fun s op => pureEffect op s) (pureEffect (VOp.putPolicy nc.1 nc.2) st)
      (rest.map (fun nc => VOp.putPolicy nc.1 nc.2))) =
      applyOpsPure (rest.map (fun nc => VOp.putPolicy nc.1 nc.2))
        (pureEffect (VOp.putPolicy nc.1 nc.2) st) from rfl]
    rw [ih]
    rfl

theorem applyOpsPure_dels (names : List String) (st : VaultState) :
    applyOpsPure (names.map (fun n => VOp.delPolicy n)) st =
      { st with policies := deleteAll names st.policies } := by
  induction names generalizing st with
  | nil => rfl
  | cons n rest ih =>
    simp only [List.map_cons, applyOpsPure, List.foldl_cons]
    rw [show (List.foldl (fun s op => pureEffect op s) (pureEffect (VOp.delPolicy n) st)
      (rest.map (fun n => VOp.delPolicy n))) =
      applyOpsPure (rest.map (fun n => VOp.delPolicy n)) (pureEffect (VOp.delPolicy n) st)
      from rfl]
    rw [ih]
    rfl

theorem applyOpsPure_writeRoles (m p : String) (localRoles : List (String × String))
    (st : VaultState) :
    applyOpsPure (localRoles.map (fun nd => VOp.writeRole m p nd.1 nd.2)) st =
      { st with roles := writeAll (roleEntries m p localRoles) st.roles } := by
  induction localRoles generalizing st with
  | nil => rfl
  | cons nd rest ih =>
    simp only [List.map_cons, applyOpsPure, List.foldl_cons]
    rw [show (List.foldl (fun s op => pureEffect op s)
      (pureEffect (VOp.writeRole m p nd.1 nd.2) st)
      (rest.map (fun nd => VOp.writeRole m p nd.1 nd.2))) =
      applyOpsPure (rest.map (fun nd => VOp.writeRole m p nd.1 nd.2))
        (pureEffect (VOp.writeRole m p nd.1 nd.2) st) from rfl]
    rw [ih]
    rfl

theorem applyOpsPure_delRoles (m p : String) (names : List String) (st : VaultState) :
    applyOpsPure (names.map (fun n => VOp.delRole m p n)) st =
      { st with roles := deleteAll (names.map (fun n => (m, p, n))) st.roles } := by
  induction names generalizing st with
  | nil => rfl
  | cons n rest ih =>
    simp only [List.map_cons, applyOpsPure, List.foldl_cons]
    rw [show (List.foldl (fun s op => pureEffect op s) (pureEffect (VOp.delRole m p n) st)
      (rest.map (fun n => VOp.delRole m p n))) =
      applyOpsPure (rest.map (fun n => VOp.delRole m p n))
        (pureEffect (VOp.delRole m p n) st) from rfl]
    rw [ih]
    rfl

/-! ### Diff-set membership lemmas -/

theorem mem_policyDeletes (n : String) (existing : List String)
    (localPolicies : List (String × String)) :
    n ∈ policyDeletes existing localPolicies ↔
      n ∈ existing ∧ ¬(n = "root" ∨ n = "default") ∧
        alookup n localPolicies = none := by
  simp only [policyDeletes, List.mem_filter]
  by_cases h : n = "root" ∨ n = "default"
  · simp [h]
  · simp [h, Option.isNone_iff_eq_none]

theorem mem_roleDeletes (n : String) (existing : List String)
    (localRoles : List (String × String)) :
    n ∈ roleDeletes existing localRoles ↔
      n ∈ existing ∧ alookup n localRoles = none := by
  simp [roleDeletes, List.mem_filter, Option.isNone_iff_eq_none]

theorem mem_listRolesL (roles : List ((String × String × String) × String))
    (m p n : String) :
    n ∈ listRolesL roles m p ↔ ∃ d, ((m, p, n), d) ∈ roles := by
  simp only [listRolesL, List.mem_map, List.mem_filter, decide_eq_true_eq]
  constructor
  · rintro ⟨r, ⟨hr, hm, hp2⟩, rfl⟩
    refine ⟨r.2, ?_⟩
    have : ((m, p, r.1.2.2), r.2) = r := by
      rw [← hm, ← hp2]
    rw [this]
    exact hr
  · rintro ⟨d, hd⟩
    exact ⟨((m, p, n), d), ⟨hd, rfl, rfl⟩, rfl⟩

theorem keys_roleEntries (m p : String) (localRoles : List (String × String)) :
    (roleEntries m p localRoles).map Prod.fst =
      (localRoles.map Prod.fst).map (fun n => (m, p, n)) := by
  induction localRoles with
  | nil => rfl
  | cons nd rest ih => simp [roleEntries, ih]

theorem nodupKeys_roleEntries (m p : String) (localRoles : List (String × String))
    (h : (localRoles.map Prod.fst).Nodup) :
    ((roleEntries m p localRoles).map Prod.fst).Nodup := by
  rw [keys_roleEntries]
  exact h.map (fun a c hac => by simpa using hac)

theorem alookup_roleEntries (m p n : String) (localRoles : List (String × String)) :
    alookup (m, p, n) (roleEntries m p localRoles) = alookup n localRoles := by
  induction localRoles with
  | nil => rfl
  | cons nd rest ih =>
    by_cases h : nd.1 = n
    · simp [roleEntries, alookup, h]
    · have h2 : ¬ (((m, p, nd.1) : String × String × String) = (m, p, n)) := by
        simp [h]
      simp only [roleEntries, List.map_cons, alookup, h2, if_false, h]
      exact ih

theorem alookup_roleEntries_ne (m p m' p' n : String)
    (localRoles : List (String × String)) (h : ¬(m' = m ∧ p' = p)) :
    alookup (m', p', n) (roleEntries m p localRoles) = none := by
  rw [alookup_none_iff, keys_roleEntries]
  intro hmem
  obtain ⟨n', _, heq⟩ := List.mem_map.mp hmem
  obtain ⟨h1, h2, _⟩ : m = m' ∧ p = p' ∧ n' = n := by
    simpa [Prod.ext_iff] using heq
  exact h ⟨h1.symm, h2.symm⟩

theorem localRolesFor_nodupKeys (lt : LocalTree) (m p : String) :
    ((localRolesFor lt m p).map Prod.fst).Nodup := by
  unfold localRolesFor
  cases lt.authDir m p with
  | notExist => simp
  | fail e => simp
  | ok entries => exact buildMap_nodupKeys entries

/-! ### Phase characterization lemmas -/

theorem opFails_policyOps_false (b : Backend) (hput : ∀ n, b.putPolicyFails n = false)
    (hdel : ∀ n, b.deletePolicyFails n = false)
    (localPolicies : List (String × String)) (existing : List String) :
    ∀ op ∈ policyOps localPolicies existing, opFails b op = false := by
  intro op hop
  rcases List.mem_append.mp hop with h | h
  · obtain ⟨nc, _, rfl⟩ := List.mem_map.mp h
    exact hput nc.1
  · obtain ⟨n, _, rfl⟩ := List.mem_map.mp h
    exact hdel n

theorem opFails_mountOps_false (b : Backend) (hb : mountOk b) (m p : String)
    (localRoles : List (String × String)) (existing : List String) :
    ∀ op ∈ mountOps m p localRoles existing, opFails b op = false := by
  intro op hop
  rcases List.mem_append.mp hop with h | h
  · obtain ⟨nd, _, rfl⟩ := List.mem_map.mp h
    exact hb.2.1 m p nd.1
  · obtain ⟨n, _, rfl⟩ := List.mem_map.mp h
    exact hb.2.2 m p n

theorem applyOpsPure_policyOps (localPolicies : List (String × String))
    (existing : List String) (st : VaultState) :
    applyOpsPure (policyOps localPolicies existing) st =
      { st with
        policies := deleteAll (policyDeletes existing localPolicies)
          (writeAll localPolicies st.policies) } := by
  unfold policyOps
  rw [applyOpsPure_append, applyOpsPure_puts, applyOpsPure_dels]

theorem applyOpsPure_mountOps (m p : String) (localRoles : List (String × String))
    (existing : List String) (st : VaultState) :
    applyOpsPure (mountOps m p localRoles existing) st =
      { st with
        roles := deleteAll ((roleDeletes existing localRoles).map (fun n => (m, p, n)))
          (writeAll (roleEntries m p localRoles) st.roles) } := by
  unfold mountOps
  rw [applyOpsPure_append, applyOpsPure_writeRoles, applyOpsPure_delRoles]

theorem applyPolicyChanges_run (b : Backend) (lt : LocalTree) (st : VaultState)
    (entries : List (String × String))
    (hlist : b.listPoliciesErr = none)
    (hput : ∀ n, b.putPolicyFails n = false)
    (hdel : ∀ n, b.deletePolicyFails n = false)
    (hdir : lt.policyDir = WalkResult.ok entries) :
    applyPolicyChanges b lt st =
      ({ st with
          policies := deleteAll
            (policyDeletes (st.policies.map Prod.fst) (buildMap entries))
            (writeAll (buildMap entries) st.policies) }, none) := by
  unfold applyPolicyChanges
  rw [hlist, hdir]
  show runOps ((policyOps (buildMap entries) (st.policies.map Prod.fst)).map
    (execOp b)) st = _
  rw [runOps_exec_ok b _ st (opFails_policyOps_false b hput hdel _ _),
    applyOpsPure_policyOps]

theorem applyPolicyChanges_ok_state (b : Backend) (lt : LocalTree)
    (st st' : VaultState) (entries : List (String × String))
    (hdir : lt.policyDir = WalkResult.ok entries)
    (h : applyPolicyChanges b lt st = (st', none)) :
    st' = { st with
      policies := deleteAll
        (policyDeletes (st.policies.map Prod.fst) (buildMap entries))
        (writeAll (buildMap entries) st.policies) } := by
  unfold applyPolicyChanges at h
  cases hlist : b.listPoliciesErr with
  | some e =>
    rw [hlist] at h
    exact absurd (congrArg Prod.snd h) (by simp)
  | none =>
    rw [hlist, hdir] at h
    obtain ⟨-, hstate⟩ := runOps_exec_none b _ st st' h
    rw [hstate, applyOpsPure_policyOps]

theorem exec_preserves_roles (b : Backend) (ops : List VOp)
    (h : ∀ op ∈ ops, isPolicyOp op) (st : VaultState) :
    ((runOps (ops.map (execOp b)) st).1).roles = st.roles := by
  induction ops generalizing st with
  | nil => rfl
  | cons op rest ih =>
    have hroles : ((execOp b op st).1).roles = st.roles := by
      unfold execOp
      by_cases hf : opFails b op = true
      · rw [if_pos hf]
      · rw [if_neg hf]
        have := h op (List.mem_cons_self _ _)
        cases op with
        | putPolicy n c => rfl
        | delPolicy n => rfl
        | writeRole m p n d => exact absurd this (by simp [isPolicyOp])
        | delRole m p n => exact absurd this (by simp [isPolicyOp])
    simp only [List.map_cons, runOps]
    rw [ih (fun o ho => h o (List.mem_cons_of_mem _ ho)) _, hroles]

theorem exec_preserves_policies (b : Backend) (ops : List VOp)
    (h : ∀ op ∈ ops, isRoleOp op) (st : VaultState) :
    ((runOps (ops.map (execOp b)) st).1).policies = st.policies := by
  induction ops generalizing st with
  | nil => rfl
  | cons op rest ih =>
    have hpol : ((execOp b op st).1).policies = st.policies := by
      unfold execOp
      by_cases hf : opFails b op = true
      · rw [if_pos hf]
      · rw [if_neg hf]
        have := h op (List.mem_cons_self _ _)
        cases op with
        | putPolicy n c => exact absurd this (by simp [isRoleOp])
        | delPolicy n => exact absurd this (by simp [isRoleOp])
        | writeRole m p n d => rfl
        | delRole m p n => rfl
    simp only [List.map_cons, runOps]
    rw [ih (fun o ho => h o (List.mem_cons_of_mem _ ho)) _, hpol]

theorem policyOps_isPolicyOp (localPolicies : List (String × String))
    (existing : List String) :
    ∀ op ∈ policyOps localPolicies existing, isPolicyOp op := by
  intro op hop
  rcases List.mem_append.mp hop with h | h
  · obtain ⟨nc, _, rfl⟩ := List.mem_map.mp h
    trivial
  · obtain ⟨n, _, rfl⟩ := List.mem_map.mp h
    trivial

theorem mountOps_isRoleOp (m p : String) (localRoles : List (String × String))
    (existing : List String) :
    ∀ op ∈ mountOps m p localRoles existing, isRoleOp op := by
  intro op hop
  rcases List.mem_append.mp hop with h | h
  · obtain ⟨nd, _, rfl⟩ := List.mem_map.mp h
    trivial
  · obtain ⟨n, _, rfl⟩ := List.mem_map.mp h
    trivial

theorem applyPolicyChanges_roles (b : Backend) (lt : LocalTree) (st : VaultState) :
    ((applyPolicyChanges b lt st).1).roles = st.roles := by
  unfold applyPolicyChanges
  cases b.listPoliciesErr with
  | some e => rfl
  | none =>
    cases lt.policyDir with
    | notExist => rfl
    | fail e => rfl
    | ok entries => exact exec_preserves_roles b _ (policyOps_isPolicyOp _ _) st

/-! ### Fixed-point lemmas for the policy phase -/

theorem policyFixed_after (localPolicies pols : List (String × String))
    (hnd : (localPolicies.map Prod.fst).Nodup) :
    policyFixed localPolicies
      (deleteAll (policyDeletes (pols.map Prod.fst) localPolicies)
        (writeAll localPolicies pols)) := by
  constructor
  · intro q hq
    rw [mem_deleteAll] at hq
    rcases mem_writeAll q _ _ hnd hq.1 with h | h
    · exact Or.inl h
    · right
      refine ⟨h.1, ?_⟩
      by_contra hprot
      apply hq.2
      rw [mem_policyDeletes]
      exact ⟨List.mem_map_of_mem Prod.fst h.2, hprot, h.1⟩
  · intro nc hnc
    rw [alookup_deleteAll]
    have hnotdel : nc.1 ∉ policyDeletes (pols.map Prod.fst) localPolicies := by
      rw [mem_policyDeletes]
      rintro ⟨-, -, hnone⟩
      rw [mem_alookup_of_nodup nc localPolicies hnd hnc] at hnone
      exact Option.noConfusion hnone
    rw [if_neg hnotdel, alookup_writeAll_of_some _ nc.2 _ _ hnd
      (mem_alookup_of_nodup nc localPolicies hnd hnc)]
    rfl

theorem policyDeletes_of_fixed (localPolicies pols : List (String × String))
    (hfix : policyFixed localPolicies pols) :
    policyDeletes (pols.map Prod.fst) localPolicies = [] := by
  rw [policyDeletes, List.filter_eq_nil_iff]
  intro n hn
  obtain ⟨q, hq, rfl⟩ := List.mem_map.mp hn
  rcases hfix.1 q hq with h | h
  · simp [h]
  · simp [h.2]

theorem applyPolicyChanges_of_fixed (b : Backend) (lt : LocalTree) (st : VaultState)
    (entries : List (String × String))
    (hlist : b.listPoliciesErr = none)
    (hput : ∀ n, b.putPolicyFails n = false)
    (hdir : lt.policyDir = WalkResult.ok entries)
    (hfix : policyFixed (buildMap entries) st.policies) :
    applyPolicyChanges b lt st = (st, none) := by
  unfold applyPolicyChanges
  rw [hlist, hdir]
  show runOps ((policyOps (buildMap entries) (st.policies.map Prod.fst)).map
    (execOp b)) st = _
  apply runOps_id
  intro op hop
  obtain ⟨vop, hvop, rfl⟩ := List.mem_map.mp hop
  rcases List.mem_append.mp hvop with h | h
  · obtain ⟨nc, hnc, rfl⟩ := List.mem_map.mp h
    have hins : insertA st.policies nc.1 nc.2 = st.policies := by
      apply insertA_self
      · exact hfix.2 nc hnc
      · intro q hq hq1
        have h1 : alookup nc.1 (buildMap entries) = some nc.2 :=
          mem_alookup_of_nodup nc _ (buildMap_nodupKeys entries) hnc
        rcases hfix.1 q hq with hsome | hnone
        · rw [hq1, h1] at hsome
          exact (Option.some.inj hsome).symm
        · rw [hq1, h1] at hnone
          exact absurd hnone.1 (by simp)
    unfold execOp
    rw [if_neg (by rw [show opFails b (VOp.putPolicy nc.1 nc.2) =
      b.putPolicyFails nc.1 from rfl, hput nc.1]; simp)]
    show ({ st with policies := insertA st.policies nc.1 nc.2 }, none) = (st, none)
    rw [hins]
  · obtain ⟨n, hn, rfl⟩ := List.mem_map.mp h
    rw [policyDeletes_of_fixed _ _ hfix] at hn
    exact absurd hn (List.not_mem_nil n)

/-! ### Section lemmas for the auth phase -/

theorem sectionExact_after (localRoles : List (String × String)) (m p : String)
    (roles : List ((String × String × String) × String))
    (hnd : (localRoles.map Prod.fst).Nodup) :
    sectionExact localRoles m p
      (deleteAll ((roleDeletes ((listRolesL roles m p).dedup) localRoles).map
          (fun n => (m, p, n)))
        (writeAll (roleEntries m p localRoles) roles)) := by
  constructor
  · intro r hr hm hp2
    rw [mem_deleteAll] at hr
    obtain ⟨hrw, hrd⟩ := hr
    have hkey : r.1 = ((m, p, r.1.2.2) : String × String × String) := by
      rw [← hm, ← hp2]
    rcases mem_writeAll r _ _ (nodupKeys_roleEntries m p localRoles hnd) hrw with h | h
    · rw [hkey, alookup_roleEntries] at h
      exact h
    · exfalso
      apply hrd
      obtain ⟨hnone, hmem⟩ := h
      have hlist : r.1.2.2 ∈ (listRolesL roles m p).dedup := by
        rw [List.mem_dedup, mem_listRolesL]
        refine ⟨r.2, ?_⟩
        rw [← hkey, Prod.mk.eta]
        exact hmem
      have hloc : alookup r.1.2.2 localRoles = none := by
        rw [hkey, alookup_roleEntries] at hnone
        exact hnone
      rw [List.mem_map]
      refine ⟨r.1.2.2, ?_, hkey.symm⟩
      rw [mem_roleDeletes]
      exact ⟨hlist, hloc⟩
  · intro nd hnd2
    rw [alookup_deleteAll]
    have hnotdel : ((m, p, nd.1) : String × String × String) ∉
        (roleDeletes ((listRolesL roles m p).dedup) localRoles).map
          (fun n => (m, p, n)) := by
      rw [List.mem_map]
      rintro ⟨n', hn', heq⟩
      obtain ⟨-, -, hname⟩ : m = m ∧ p = p ∧ n' = nd.1 := by
        simpa [Prod.ext_iff] using heq
      rw [mem_roleDeletes, hname, mem_alookup_of_nodup nd localRoles hnd hnd2] at hn'
      exact Option.noConfusion hn'.2
    rw [if_neg hnotdel, alookup_writeAll_of_some _ nd.2 _ _
      (nodupKeys_roleEntries m p localRoles hnd)
      (by rw [alookup_roleEntries]; exact mem_alookup_of_nodup nd localRoles hnd hnd2)]
    rfl

theorem sectionExact_preserved (localRoles : List (String × String)) (m p m2 p2 : String)
    (wlocal : List (String × String)) (delNames : List String)
    (roles : List ((String × String × String) × String))
    (hne : ¬(m = m2 ∧ p = p2)) (h : sectionExact localRoles m p roles) :
    sectionExact localRoles m p
      (deleteAll (delNames.map (fun n => (m2, p2, n)))
        (writeAll (roleEntries m2 p2 wlocal) roles)) := by
  constructor
  · intro r hr hm hp2
    rw [mem_deleteAll] at hr
    rcases mem_writeAll_weak r _ _ hr.1 with hk | hmem
    · exfalso
      rw [keys_roleEntries] at hk
      obtain ⟨n', -, heq⟩ := List.mem_map.mp hk
      apply hne
      constructor
      · rw [← hm, ← heq]
      · rw [← hp2, ← heq]
    · exact h.1 r hmem hm hp2
  · intro nd hnd2
    rw [alookup_deleteAll]
    have hnotdel : ((m, p, nd.1) : String × String × String) ∉
        delNames.map (fun n => (m2, p2, n)) := by
      rw [List.mem_map]
      rintro ⟨n', -, heq⟩
      apply hne
      obtain ⟨h1, h2, -⟩ : m2 = m ∧ p2 = p ∧ n' = nd.1 := by
        simpa [Prod.ext_iff] using heq
      exact ⟨h1.symm, h2.symm⟩
    rw [if_neg hnotdel, alookup_writeAll_of_none _ _ _
      (alookup_roleEntries_ne m2 p2 m p nd.1 wlocal hne)]
    exact h.2 nd hnd2

/-! ### Per-mount characterization -/

theorem processMount_skip (b : Backend) (lt : LocalTree) (mn mt : String)
    (st : VaultState) (hp : rolePathPrefix mt = none) :
    processMount b lt mn mt st = (st, none) := by
  unfold processMount
  rw [hp]

theorem processMount_sec (b : Backend) (lt : LocalTree) (mn mt p : String)
    (st : VaultState) (hp : rolePathPrefix mt = some p) :
    processMount b lt mn mt st = processMountSection b lt (trimSlash mn) p st := by
  unfold processMount
  rw [hp]

theorem processMountSection_run (b : Backend) (lt : LocalTree) (m p : String)
    (st : VaultState)
    (hw : ∀ e, lt.authDir m p ≠ WalkResult.fail e)
    (hlist : b.listRolesErr m p = none)
    (hwr : ∀ n, b.writeRoleFails m p n = false)
    (hdr : ∀ n, b.deleteRoleFails m p n = false) :
    processMountSection b lt m p st =
      ({ st with
        roles := deleteAll
          ((roleDeletes ((listRoles st m p).dedup) (localRolesFor lt m p)).map
            (fun n => (m, p, n)))
          (writeAll (roleEntries m p (localRolesFor lt m p)) st.roles) }, none) := by
  have hfails : ∀ op ∈ mountOps m p (localRolesFor lt m p) ((listRoles st m p).dedup),
      opFails b op = false := by
    intro op hop
    rcases List.mem_append.mp hop with h | h
    · obtain ⟨nd, -, rfl⟩ := List.mem_map.mp h
      exact hwr nd.1
    · obtain ⟨n, -, rfl⟩ := List.mem_map.mp h
      exact hdr n
  unfold processMountSection
  cases hA : lt.authDir m p with
  | fail e => exact absurd hA (hw e)
  | notExist =>
    rw [hlist]
    show runOps ((mountOps m p (localRolesFor lt m p)
      ((listRoles st m p).dedup)).map (execOp b)) st = _
    rw [runOps_exec_ok b _ st hfails, applyOpsPure_mountOps]
  | ok entries =>
    rw [hlist]
    show runOps ((mountOps m p (localRolesFor lt m p)
      ((listRoles st m p).dedup)).map (execOp b)) st = _
    rw [runOps_exec_ok b _ st hfails, applyOpsPure_mountOps]

theorem runOps_mountOps_fixed (b : Backend) (m p : String)
    (localRoles : List (String × String)) (st : VaultState)
    (hwr : ∀ n, b.writeRoleFails m p n = false)
    (hnd : (localRoles.map Prod.fst).Nodup)
    (hfix : sectionExact localRoles m p st.roles) :
    runOps ((mountOps m p localRoles ((listRoles st m p).dedup)).map (execOp b)) st =
      (st, none) := by
  have hdel : roleDeletes ((listRoles st m p).dedup) localRoles = [] := by
    rw [roleDeletes, List.filter_eq_nil_iff]
    intro n hn
    rw [List.mem_dedup, listRoles, mem_listRolesL] at hn
    obtain ⟨d, hd⟩ := hn
    have := hfix.1 ((m, p, n), d) hd rfl rfl
    simp [this]
  apply runOps_id
  intro op hop
  obtain ⟨vop, hvop, rfl⟩ := List.mem_map.mp hop
  rw [mountOps, hdel] at hvop
  simp only [List.map_nil, List.append_nil] at hvop
  obtain ⟨nd, hnd2, rfl⟩ := List.mem_map.mp hvop
  have hins : insertA st.roles ((m, p, nd.1) : String × String × String) nd.2 =
      st.roles := by
    apply insertA_self
    · exact hfix.2 nd hnd2
    · intro r hr hr1
      have hm : r.1.1 = m := by rw [hr1]
      have hp2 : r.1.2.1 = p := by rw [hr1]
      have hname : r.1.2.2 = nd.1 := by rw [hr1]
      have hval := hfix.1 r hr hm hp2
      rw [hname, mem_alookup_of_nodup nd localRoles hnd hnd2] at hval
      exact (Option.some.inj hval).symm
  unfold execOp
  rw [if_neg (by rw [show opFails b (VOp.writeRole m p nd.1 nd.2) =
    b.writeRoleFails m p nd.1 from rfl, hwr nd.1]; simp)]
  show ({ st with roles := insertA st.roles (m, p, nd.1) nd.2 }, none) = (st, none)
  rw [hins]

theorem processMountSection_fixed (b : Backend) (lt : LocalTree) (m p : String)
    (st : VaultState)
    (hw : ∀ e, lt.authDir m p ≠ WalkResult.fail e)
    (hlist : b.listRolesErr m p = none)
    (hwr : ∀ n, b.writeRoleFails m p n = false)
    (hfix : sectionExact (localRolesFor lt m p) m p st.roles) :
    processMountSection b lt m p st = (st, none) := by
  unfold processMountSection
  cases hA : lt.authDir m p with
  | fail e => exact absurd hA (hw e)
  | notExist =>
    rw [hlist]
    exact runOps_mountOps_fixed b m p _ st hwr (localRolesFor_nodupKeys lt m p) hfix
  | ok entries =>
    rw [hlist]
    exact runOps_mountOps_fixed b m p _ st hwr (localRolesFor_nodupKeys lt m p) hfix

/-! ### Mount-list lemmas -/

theorem applyAuthMounts_cons (b : Backend) (lt : LocalTree) (mt : String × String)
    (rest : List (String × String)) (st : VaultState) :
    applyAuthMounts b lt (mt :: rest) st =
      match processMount b lt mt.1 mt.2 st with
      | (st', none) => applyAuthMounts b lt rest st'
      | (st', some e) => (st', some e) := rfl

theorem applyAuthMounts_preserves (b : Backend) (lt : LocalTree)
    (mounts : List (String × String)) (st : VaultState)
    (hb : mountOk b) (hw : noWalkFail lt) (m0 p0 : String)
    (hsec : sectionExact (localRolesFor lt m0 p0) m0 p0 st.roles) :
    sectionExact (localRolesFor lt m0 p0) m0 p0
      ((applyAuthMounts b lt mounts st).1).roles := by
  induction mounts generalizing st with
  | nil => exact hsec
  | cons mt rest ih =>
    cases hp : rolePathPrefix mt.2 with
    | none =>
      rw [applyAuthMounts_cons, processMount_skip b lt mt.1 mt.2 st hp]
      exact ih st hsec
    | some p =>
      rw [applyAuthMounts_cons, processMount_sec b lt mt.1 mt.2 p st hp,
        processMountSection_run b lt (trimSlash mt.1) p st
          (fun e => hw (trimSlash mt.1) p e) (hb.1 _ p) (hb.2.1 _ p) (hb.2.2 _ p)]
      show sectionExact (localRolesFor lt m0 p0) m0 p0
        ((applyAuthMounts b lt rest _).1).roles
      by_cases heq : m0 = trimSlash mt.1 ∧ p0 = p
      · obtain ⟨rfl, rfl⟩ := heq
        exact ih _ (sectionExact_after _ _ _ _ (localRolesFor_nodupKeys lt _ _))
      · exact ih _ (sectionExact_preserved _ _ _ _ _ _ _ _ heq hsec)

theorem applyAuthMounts_run (b : Backend) (lt : LocalTree)
    (mounts : List (String × String)) (st : VaultState)
    (hb : mountOk b) (hw : noWalkFail lt) :
    (applyAuthMounts b lt mounts st).2 = none ∧
    ((applyAuthMounts b lt mounts st).1).policies = st.policies ∧
    mountsFixed lt mounts ((applyAuthMounts b lt mounts st).1).roles := by
  induction mounts generalizing st with
  | nil =>
    refine ⟨rfl, rfl, ?_⟩
    intro mt hmt
    simp at hmt
  | cons mt rest ih =>
    cases hp : rolePathPrefix mt.2 with
    | none =>
      rw [applyAuthMounts_cons, processMount_skip b lt mt.1 mt.2 st hp]
      show (applyAuthMounts b lt rest st).2 = none ∧
        ((applyAuthMounts b lt rest st).1).policies = st.policies ∧
        mountsFixed lt (mt :: rest) ((applyAuthMounts b lt rest st).1).roles
      obtain ⟨h1, h2, h3⟩ := ih st
      refine ⟨h1, h2, ?_⟩
      intro mt' hmt' p' hp'
      rcases List.mem_cons.mp hmt' with rfl | hmem
      · rw [hp] at hp'
        exact Option.noConfusion hp'
      · exact h3 mt' hmem p' hp'
    | some p =>
      rw [applyAuthMounts_cons, processMount_sec b lt mt.1 mt.2 p st hp,
        processMountSection_run b lt (trimSlash mt.1) p st
          (fun e => hw (trimSlash mt.1) p e) (hb.1 _ p) (hb.2.1 _ p) (hb.2.2 _ p)]
      show (applyAuthMounts b lt rest _).2 = none ∧
        ((applyAuthMounts b lt rest _).1).policies = st.policies ∧
        mountsFixed lt (mt :: rest) ((applyAuthMounts b lt rest _).1).roles
      obtain ⟨h1, h2, h3⟩ := ih _
      refine ⟨h1, by rw [h2], ?_⟩
      intro mt' hmt' p' hp'
      rcases List.mem_cons.mp hmt' with rfl | hmem
      · rw [hp] at hp'
        obtain rfl : p = p' := Option.some.inj hp'
        exact applyAuthMounts_preserves b lt rest _ hb hw _ p
          (sectionExact_after _ _ _ _ (localRolesFor_nodupKeys lt _ _))
      · exact h3 mt' hmem p' hp'

theorem applyAuthMounts_fixed (b : Backend) (lt : LocalTree)
    (mounts : List (String × String)) (st : VaultState)
    (hb : mountOk b) (hw : noWalkFail lt)
    (hfix : mountsFixed lt mounts st.roles) :
    applyAuthMounts b lt mounts st = (st, none) := by
  induction mounts with
  | nil => rfl
  | cons mt rest ih =>
    have hhead : processMount b lt mt.1 mt.2 st = (st, none) := by
      cases hp : rolePathPrefix mt.2 with
      | none => exact processMount_skip b lt mt.1 mt.2 st hp
      | some p =>
        rw [processMount_sec b lt mt.1 mt.2 p st hp]
        exact processMountSection_fixed b lt (trimSlash mt.1) p st
          (fun e => hw (trimSlash mt.1) p e) (hb.1 _ p) (hb.2.1 _ p)
          (hfix mt (List.mem_cons_self _ _) p hp)
    rw [applyAuthMounts_cons, hhead]
    exact ih (fun mt' hmt' p' hp' => hfix mt' (List.mem_cons_of_mem _ hmt') p' hp')

/-! ### Orchestrator helper lemmas and fixture facts -/

theorem ApplyChanges_policy_ok (b : Backend) (lt : LocalTree) (st stP : VaultState)
    (h : applyPolicyChanges b lt st = (stP, none)) :
    ApplyChanges b lt st =
      match applyAuthChanges b lt stP with
      | (st'', some e) => (st'', some ("error applying auth changes: " ++ e))
      | (st'', none) => (st'', none) := by
  unfold ApplyChanges
  rw [h]

theorem applyAuthChanges_eq (b : Backend) (lt : LocalTree) (st : VaultState)
    (ms : List (String × String)) (h : b.listAuthResult = Except.ok ms) :
    applyAuthChanges b lt st = applyAuthMounts b lt ms st := by
  unfold applyAuthChanges
  rw [h]

theorem bOk_allOk : bOk.allOk :=
  ⟨rfl, fun _ => rfl, fun _ => rfl, ⟨_, rfl⟩, fun _ _ => rfl,
   fun _ _ _ => rfl, fun _ _ _ => rfl⟩

theorem bOk_mountOk : mountOk bOk :=
  ⟨fun _ _ => rfl, fun _ _ _ => rfl, fun _ _ _ => rfl⟩

theorem ltEx_noWalkFail : noWalkFail ltEx := by
  intro m p e h
  dsimp only [ltEx] at h
  split at h
  · exact WalkResult.noConfusion h
  · exact WalkResult.noConfusion h

theorem ltRoot_noWalkFail : noWalkFail ltRoot := by
  intro m p e h
  exact WalkResult.noConfusion h

/-! ### The claims -/

/-- C2: the to-write set is exactly the local entries (no content-equality
check against the remote), the to-delete set is exactly the remote names
absent locally minus protected names (policy phase) or absent locally
(role phase), and write and delete targets are disjoint. -/
theorem diff_sets_characterization (localEntries : List (String × String))
    (existing : List String) (m p : String) :
    (∀ nc ∈ localEntries, VOp.putPolicy nc.1 nc.2 ∈ policyOps localEntries existing) ∧
    (∀ n, VOp.delPolicy n ∈ policyOps localEntries existing ↔
      n ∈ existing ∧ ¬(n = "root" ∨ n = "default") ∧ alookup n localEntries = none) ∧
    (∀ n c, VOp.putPolicy n c ∈ policyOps localEntries existing →
      VOp.delPolicy n ∉ policyOps localEntries existing) ∧
    (∀ nd ∈ localEntries,
      VOp.writeRole m p nd.1 nd.2 ∈ mountOps m p localEntries existing) ∧
    (∀ n, VOp.delRole m p n ∈ mountOps m p localEntries existing ↔
      n ∈ existing ∧ alookup n localEntries = none) ∧
    (∀ n d, VOp.writeRole m p n d ∈ mountOps m p localEntries existing →
      VOp.delRole m p n ∉ mountOps m p localEntries existing) := by
  have hdelP : ∀ n, VOp.delPolicy n ∈ policyOps localEntries existing ↔
      n ∈ policyDeletes existing localEntries := by
    intro n
    simp [policyOps, List.mem_append, List.mem_map]
  have hdelR : ∀ n, VOp.delRole m p n ∈ mountOps m p localEntries existing ↔
      n ∈ roleDeletes existing localEntries := by
    intro n
    simp [mountOps, List.mem_append, List.mem_map]
  refine ⟨?_, ?_, ?_, ?_, ?_, ?_⟩
  · intro nc hnc
    exact List.mem_append_left _ (List.mem_map_of_mem _ hnc)
  · intro n
    rw [hdelP, mem_policyDeletes]
  · intro n c hput hdel
    rw [hdelP, mem_policyDeletes] at hdel
    rcases List.mem_append.mp hput with h | h
    · obtain ⟨nc, hnc, heq⟩ := List.mem_map.mp h
      obtain ⟨h1, -⟩ : nc.1 = n ∧ nc.2 = c := by simpa using heq
      have : (alookup n localEntries).isSome = true :=
        (alookup_isSome_iff n localEntries).mpr
          (h1 ▸ List.mem_map_of_mem Prod.fst hnc)
      rw [hdel.2.2] at this
      exact Bool.noConfusion this
    · obtain ⟨n', -, heq⟩ := List.mem_map.mp h
      exact VOp.noConfusion heq
  · intro nd hnd
    exact List.mem_append_left _ (List.mem_map_of_mem _ hnd)
  · intro n
    rw [hdelR, mem_roleDeletes]
  · intro n d hput hdel
    rw [hdelR, mem_roleDeletes] at hdel
    rcases List.mem_append.mp hput with h | h
    · obtain ⟨nd, hnd, heq⟩ := List.mem_map.mp h
      obtain ⟨h1, -⟩ : nd.1 = n ∧ nd.2 = d := by simpa using heq
      have : (alookup n localEntries).isSome = true :=
        (alookup_isSome_iff n localEntries).mpr
          (h1 ▸ List.mem_map_of_mem Prod.fst hnd)
      rw [hdel.2] at this
      exact Bool.noConfusion this
    · obtain ⟨n', -, heq⟩ := List.mem_map.mp h
      exact VOp.noConfusion heq

/-- C2 witness at a concrete local map, remote set and mount section. -/
theorem diff_sets_characterization_witness :
    VOp.putPolicy "p1" "bodyA" ∈ policyOps [("p1", "bodyA")] ["p1", "p3", "root"] ∧
    VOp.delPolicy "p1" ∉ policyOps [("p1", "bodyA")] ["p1", "p3", "root"] ∧
    (VOp.delRole "approle" "role" "r9" ∈
        mountOps "approle" "role" [("p1", "bodyA")] ["p1", "p3", "root"] ↔
      "r9" ∈ ["p1", "p3", "root"] ∧ alookup "r9" [("p1", "bodyA")] = none) :=
  ⟨(diff_sets_characterization [("p1", "bodyA")] ["p1", "p3", "root"]
      "approle" "role").1 ("p1", "bodyA") (by decide),
   (diff_sets_characterization [("p1", "bodyA")] ["p1", "p3", "root"]
      "approle" "role").2.2.1 "p1" "bodyA"
     ((diff_sets_characterization [("p1", "bodyA")] ["p1", "p3", "root"]
        "approle" "role").1 ("p1", "bodyA") (by decide)),
   (diff_sets_characterization [("p1", "bodyA")] ["p1", "p3", "root"]
      "approle" "role").2.2.2.2.1 "r9"⟩

/-- C3: the protected policy names `root` and `default` are never in the
policy to-delete set, whatever the local map and remote listing are. -/
theorem protected_never_deleted (existing : List String)
    (localPolicies : List (String × String)) :
    "root" ∉ policyDeletes existing localPolicies ∧
    "default" ∉ policyDeletes existing localPolicies := by
  constructor
  · rw [mem_policyDeletes]
    rintro ⟨-, h, -⟩
    exact h (Or.inl rfl)
  · rw [mem_policyDeletes]
    rintro ⟨-, h, -⟩
    exact h (Or.inr rfl)

/-- C3 witness at a concrete remote listing that contains both names. -/
theorem protected_never_deleted_witness :
    "root" ∉ policyDeletes ["root", "default", "p3"] [] ∧
    "default" ∉ policyDeletes ["root", "default", "p3"] [] :=
  protected_never_deleted ["root", "default", "p3"] []

/-- C4 counterexample: on a missing policy directory `applyPolicyChanges`
returns an error instead of treating the local mapping as empty. -/
theorem missing_policy_dir_errors :
    (applyPolicyChanges bOk ltMissingPolicy stEx).2 ≠ none := by decide

/-- C4 amended: a missing root directory is treated as zero entries and
no error by the auth role reader, but the policy phase has no such
tolerance: `applyPolicyChanges` on a missing policy directory returns
an error. -/
theorem missing_root_dir_amended :
    (∀ lt m p, lt.authDir m p = WalkResult.notExist → localRolesFor lt m p = []) ∧
    (∀ (b : Backend) (lt : LocalTree) (mn mt p : String) (st : VaultState),
      rolePathPrefix mt = some p → mountOk b →
      lt.authDir (trimSlash mn) p = WalkResult.notExist →
      (processMount b lt mn mt st).2 = none) ∧
    (∀ (b : Backend) (lt : LocalTree) (st : VaultState),
      lt.policyDir = WalkResult.notExist →
      (applyPolicyChanges b lt st).2 ≠ none) := by
  refine ⟨?_, ?_, ?_⟩
  · intro lt m p h
    unfold localRolesFor
    rw [h]
  · intro b lt mn mt p st hp hb hA
    have hw : ∀ e, lt.authDir (trimSlash mn) p ≠ WalkResult.fail e :=
      fun e h => by rw [hA] at h; exact WalkResult.noConfusion h
    rw [processMount_sec b lt mn mt p st hp,
      processMountSection_run b lt (trimSlash mn) p st hw (hb.1 _ p)
        (hb.2.1 _ p) (hb.2.2 _ p)]
  · intro b lt st h
    unfold applyPolicyChanges
    cases hl : b.listPoliciesErr
    · rw [h]
      simp
    · simp

/-- C4 witness: concrete missing directories for both parts. -/
theorem missing_root_dir_amended_witness :
    localRolesFor ltMissingPolicy "approle" "role" = [] ∧
    (processMount bOk ltMissingPolicy "approle" "approle" stEx).2 = none ∧
    (applyPolicyChanges bOk ltMissingPolicy stEx).2 ≠ none :=
  ⟨missing_root_dir_amended.1 ltMissingPolicy "approle" "role" rfl,
   missing_root_dir_amended.2.1 bOk ltMissingPolicy "approle" "approle" "role" stEx
     (by decide) bOk_mountOk rfl,
   missing_root_dir_amended.2.2 bOk ltMissingPolicy stEx rfl⟩

/-- C5: a supported mount whose local role directory does not exist
reconciles without error, its to-delete set is the entire remote
listing, and afterwards its remote section is empty. -/
theorem missing_auth_dir_deletes_all (b : Backend) (lt : LocalTree)
    (mn mt p : String) (st : VaultState)
    (hp : rolePathPrefix mt = some p) (hb : mountOk b)
    (hA : lt.authDir (trimSlash mn) p = WalkResult.notExist) :
    (processMount b lt mn mt st).2 = none ∧
    roleDeletes ((listRoles st (trimSlash mn) p).dedup)
        (localRolesFor lt (trimSlash mn) p) =
      (listRoles st (trimSlash mn) p).dedup ∧
    listRolesL ((processMount b lt mn mt st).1).roles (trimSlash mn) p = [] := by
  have hloc : localRolesFor lt (trimSlash mn) p = [] := by
    unfold localRolesFor
    rw [hA]
  have hw : ∀ e, lt.authDir (trimSlash mn) p ≠ WalkResult.fail e :=
    fun e h => by rw [hA] at h; exact WalkResult.noConfusion h
  have hrun := processMountSection_run b lt (trimSlash mn) p st hw (hb.1 _ p)
    (hb.2.1 _ p) (hb.2.2 _ p)
  rw [processMount_sec b lt mn mt p st hp, hrun]
  refine ⟨rfl, ?_, ?_⟩
  · rw [hloc, roleDeletes, List.filter_eq_self]
    intro a _
    simp [alookup]
  · rw [hloc]
    apply List.eq_nil_iff_forall_not_mem.mpr
    intro n hn
    rw [mem_listRolesL] at hn
    obtain ⟨d, hd⟩ := hn
    rw [mem_deleteAll] at hd
    obtain ⟨hmem, hkey⟩ := hd
    have hmem' : ((trimSlash mn, p, n), d) ∈ st.roles := hmem
    apply hkey
    rw [List.mem_map]
    refine ⟨n, ?_, rfl⟩
    rw [mem_roleDeletes]
    refine ⟨?_, by simp [alookup]⟩
    rw [List.mem_dedup, listRoles, mem_listRolesL]
    exact ⟨d, hmem'⟩

/-- C5 witness: the fixture state has one stale `approle` role and no
local role directory; the whole listing is deleted. -/
theorem missing_auth_dir_deletes_all_witness :
    (processMount bOk ltMissingPolicy "approle" "approle" stEx).2 = none ∧
    roleDeletes ((listRoles stEx (trimSlash "approle") "role").dedup)
        (localRolesFor ltMissingPolicy (trimSlash "approle") "role") =
      (listRoles stEx (trimSlash "approle") "role").dedup ∧
    listRolesL ((processMount bOk ltMissingPolicy "approle" "approle" stEx).1).roles
      (trimSlash "approle") "role" = [] :=
  missing_auth_dir_deletes_all bOk ltMissingPolicy "approle" "approle" "role" stEx
    (by decide) bOk_mountOk rfl

/-- C6: the mount classifier realises exactly the fixed type table,
yields `none` on every type outside it, and an unsupported mount is
skipped while reconciliation continues with the remaining mounts. -/
theorem mount_classifier_table :
    (rolePathPrefix "aws" = some "roles" ∧ rolePathPrefix "gcp" = some "roles" ∧
     rolePathPrefix "azure" = some "role" ∧ rolePathPrefix "kubernetes" = some "role" ∧
     rolePathPrefix "oidc" = some "role" ∧ rolePathPrefix "oci" = some "role" ∧
     rolePathPrefix "saml" = some "role" ∧ rolePathPrefix "approle" = some "role" ∧
     rolePathPrefix "kerberos" = some "groups" ∧ rolePathPrefix "ldap" = some "groups" ∧
     rolePathPrefix "okta" = some "groups" ∧ rolePathPrefix "radius" = some "users" ∧
     rolePathPrefix "token" = some "roles") ∧
    (∀ t, t ∉ supportedMountTypes → rolePathPrefix t = none) ∧
    (∀ (b : Backend) (lt : LocalTree) (mn t : String)
      (rest : List (String × String)) (st : VaultState),
      rolePathPrefix t = none →
      applyAuthMounts b lt ((mn, t) :: rest) st = applyAuthMounts b lt rest st) := by
  refine ⟨by decide, ?_, ?_⟩
  · intro t ht
    simp only [supportedMountTypes, List.mem_cons, List.not_mem_nil, or_false,
      not_or] at ht
    obtain ⟨h1, h2, h3, h4, h5, h6, h7, h8, h9, h10, h11, h12, h13⟩ := ht
    simp [rolePathPrefix, h1, h2, h3, h4, h5, h6, h7, h8, h9, h10, h11, h12, h13]
  · intro b lt mn t rest st hp
    rw [applyAuthMounts_cons, processMount_skip b lt (mn, t).1 (mn, t).2 st hp]

/-- C6 witness: a type outside the table is skipped and reconciliation
of the remaining (empty) mount list proceeds. -/
theorem mount_classifier_table_witness :
    rolePathPrefix "github" = none ∧
    applyAuthMounts bOk ltEx [("gh/", "github")] stEx =
      applyAuthMounts bOk ltEx [] stEx :=
  ⟨mount_classifier_table.2.1 "github" (by decide),
   mount_classifier_table.2.2 bOk ltEx "gh/" "github" [] stEx
     (mount_classifier_table.2.1 "github" (by decide))⟩

/-- C7: the batch executor attempts every dispatched operation (the
final state is the fold of all their effects), returns the first
observed error, and returns `none` exactly when every operation
succeeded. -/
theorem runOps_first_error_spec {σ : Type} (ops : List (σ → σ × Option String))
    (st : σ) :
    (runOps ops st).1 = opsEffect ops st ∧
    (runOps ops st).2 = firstSome (opResults ops st) ∧
    ((runOps ops st).2 = none ↔ ∀ r ∈ opResults ops st, r = none) := by
  refine ⟨runOps_fst ops st, runOps_snd ops st, ?_⟩
  rw [runOps_snd]
  exact firstSome_eq_none_iff _

/-- C7 witness: a concrete batch with a failing middle operation. -/
theorem runOps_first_error_spec_witness :
    (runOps opsEx 0).1 = opsEffect opsEx 0 ∧
    (runOps opsEx 0).2 = firstSome (opResults opsEx 0) ∧
    ((runOps opsEx 0).2 = none ↔ ∀ r ∈ opResults opsEx 0, r = none) :=
  runOps_first_error_spec opsEx 0

/-- C9: when the policy phase fails, `ApplyChanges` returns its error
wrapped with phase context and the auth phase is not executed: the
role state is exactly the input role state. -/
theorem policy_phase_failure_aborts_auth (b : Backend) (lt : LocalTree)
    (st st' : VaultState) (e : String)
    (h : applyPolicyChanges b lt st = (st', some e)) :
    ApplyChanges b lt st = (st', some ("error applying policy changes: " ++ e)) ∧
    st'.roles = st.roles := by
  constructor
  · unfold ApplyChanges
    rw [h]
  · have hr := applyPolicyChanges_roles b lt st
    rw [h] at hr
    exact hr

/-- C9 witness: a failing policy listing aborts the whole apply. -/
theorem policy_phase_failure_aborts_auth_witness :
    ApplyChanges bListFail ltEx stEx =
      (stEx, some ("error applying policy changes: " ++
        ("error listing existing policies from Vault: " ++ "connection refused"))) ∧
    stEx.roles = stEx.roles :=
  policy_phase_failure_aborts_auth bListFail ltEx stEx stEx
    ("error listing existing policies from Vault: " ++ "connection refused")
    (by decide)

/-- C10: protected names are protected only from deletion: a local
`root` or `default` entry is written like any other local entry, and
after a successful policy phase the remote carries the local content. -/
theorem protected_names_still_written (b : Backend) (lt : LocalTree)
    (st : VaultState) (entries : List (String × String)) (n v : String)
    (hb : b.allOk) (hdir : lt.policyDir = WalkResult.ok entries)
    (hn : n = "root" ∨ n = "default")
    (hv : alookup n (buildMap entries) = some v) :
    VOp.putPolicy n v ∈ policyOps (buildMap entries) (st.policies.map Prod.fst) ∧
    (applyPolicyChanges b lt st).2 = none ∧
    alookup n ((applyPolicyChanges b lt st).1).policies = some v := by
  obtain ⟨hlp, hput, hdel, -⟩ := hb
  have hrun := applyPolicyChanges_run b lt st entries hlp hput hdel hdir
  have hmem : (n, v) ∈ buildMap entries := alookup_eq_some_mem n v _ hv
  refine ⟨?_, by rw [hrun], ?_⟩
  · exact List.mem_append_left _ (List.mem_map_of_mem _ hmem)
  · rw [hrun]
    show alookup n (deleteAll
      (policyDeletes (st.policies.map Prod.fst) (buildMap entries))
      (writeAll (buildMap entries) st.policies)) = some v
    rw [alookup_deleteAll]
    have hnotdel : n ∉ policyDeletes (st.policies.map Prod.fst) (buildMap entries) := by
      rw [mem_policyDeletes]
      rintro ⟨-, hprot, -⟩
      exact hprot hn
    rw [if_neg hnotdel]
    exact alookup_writeAll_of_some _ v _ _ (buildMap_nodupKeys entries) hv

/-- C10 witness: a local tree that overwrites `root`. -/
theorem protected_names_still_written_witness :
    VOp.putPolicy "root" "newroot" ∈
      policyOps (buildMap [("root", "newroot"), ("p1", "b")])
        (stEx.policies.map Prod.fst) ∧
    (applyPolicyChanges bOk ltRoot stEx).2 = none ∧
    alookup "root" ((applyPolicyChanges bOk ltRoot stEx).1).policies =
      some "newroot" :=
  protected_names_still_written bOk ltRoot stEx [("root", "newroot"), ("p1", "b")]
    "root" "newroot" bOk_allOk rfl (Or.inl rfl) (by decide)

/-- C1: after a policy phase that returns no error, the remote policy
name set is exactly the local key set, plus the protected remote names
that had no local counterpart. -/
theorem applyPolicy_remote_set_after_success (b : Backend) (lt : LocalTree)
    (st st' : VaultState) (entries : List (String × String))
    (h : applyPolicyChanges b lt st = (st', none))
    (hdir : lt.policyDir = WalkResult.ok entries) :
    ∀ n, n ∈ st'.policies.map Prod.fst ↔
      (n ∈ (buildMap entries).map Prod.fst ∨
        (n ∈ st.policies.map Prod.fst ∧ (n = "root" ∨ n = "default") ∧
          n ∉ (buildMap entries).map Prod.fst)) := by
  intro n
  have hst := applyPolicyChanges_ok_state b lt st st' entries hdir h
  rw [hst]
  show (n ∈ (deleteAll (policyDeletes (st.policies.map Prod.fst) (buildMap entries))
    (writeAll (buildMap entries) st.policies)).map Prod.fst) ↔ _
  rw [← alookup_isSome_iff (β := String), alookup_deleteAll]
  by_cases hloc : (alookup n (buildMap entries)).isSome = true
  · obtain ⟨v, hv⟩ := Option.isSome_iff_exists.mp hloc
    have hnotdel : n ∉ policyDeletes (st.policies.map Prod.fst) (buildMap entries) := by
      rw [mem_policyDeletes]
      rintro ⟨-, -, hnone⟩
      rw [hv] at hnone
      exact Option.noConfusion hnone
    rw [if_neg hnotdel, alookup_writeAll_of_some _ v _ _ (buildMap_nodupKeys entries) hv]
    refine ⟨fun _ => Or.inl ?_, fun _ => rfl⟩
    rw [← alookup_isSome_iff]
    exact hloc
  · have hnone : alookup n (buildMap entries) = none := by
      cases hcase : alookup n (buildMap entries)
      · rfl
      · exact absurd (by simp [hcase]) hloc
    have hnotin : n ∉ (buildMap entries).map Prod.fst :=
      fun hmem => hloc ((alookup_isSome_iff n (buildMap entries)).mpr hmem)
    by_cases hdel2 : n ∈ policyDeletes (st.policies.map Prod.fst) (buildMap entries)
    · rw [if_pos hdel2]
      rw [mem_policyDeletes] at hdel2
      constructor
      · intro hfalse
        exact absurd hfalse (by simp)
      · rintro (hmem | ⟨-, hprot, -⟩)
        · exact absurd hmem hnotin
        · exact absurd hprot hdel2.2.1
    · rw [if_neg hdel2, alookup_writeAll_of_none _ _ _ hnone, alookup_isSome_iff]
      constructor
      · intro hmem
        right
        refine ⟨hmem, ?_, hnotin⟩
        rw [mem_policyDeletes] at hdel2
        by_contra hprot
        exact hdel2 ⟨hmem, hprot, hnone⟩
      · rintro (hmem | ⟨hmem, -, -⟩)
        · exact absurd hmem hnotin
        · exact hmem

/-- C1 witness: the specification scenario, with protected names in the
remote set; `p3` is gone, `p1`, `p2` are present, `root` and `default`
survive. -/
theorem applyPolicy_remote_set_after_success_witness :
    applyPolicyChanges bOk ltEx stEx = (st1Ex, none) ∧
    ("p3" ∈ st1Ex.policies.map Prod.fst ↔
      ("p3" ∈ (buildMap [("p1", "bodyA"), ("p2", "bodyB")]).map Prod.fst ∨
        ("p3" ∈ stEx.policies.map Prod.fst ∧ ("p3" = "root" ∨ "p3" = "default") ∧
          "p3" ∉ (buildMap [("p1", "bodyA"), ("p2", "bodyB")]).map Prod.fst))) :=
  ⟨by decide,
   applyPolicy_remote_set_after_success bOk ltEx stEx st1Ex
     [("p1", "bodyA"), ("p2", "bodyB")] (by decide) rfl "p3"⟩

/-- C8: with every remote call succeeding and the local tree readable,
a second run of `ApplyChanges` on the state produced by a first run
leaves the state unchanged and reports no error (and the first run
reports no error either). -/
theorem applyChanges_idempotent (b : Backend) (lt : LocalTree) (st : VaultState)
    (entries : List (String × String))
    (hb : b.allOk) (hdir : lt.policyDir = WalkResult.ok entries)
    (hw : noWalkFail lt) :
    (ApplyChanges b lt st).2 = none ∧
    ApplyChanges b lt (ApplyChanges b lt st).1 = ((ApplyChanges b lt st).1, none) := by
  obtain ⟨hlp, hput, hdel, ⟨ms, hla⟩, hlr, hwr, hdr⟩ := hb
  have hmOk : mountOk b := ⟨hlr, hwr, hdr⟩
  have h1 := applyPolicyChanges_run b lt st entries hlp hput hdel hdir
  set stP : VaultState := { st with
    policies := deleteAll
      (policyDeletes (st.policies.map Prod.fst) (buildMap entries))
      (writeAll (buildMap entries) st.policies) } with hstP
  have h2 := applyAuthMounts_run b lt ms stP hmOk hw
  set st1 : VaultState := (applyAuthMounts b lt ms stP).1 with hst1
  have hmounts : applyAuthMounts b lt ms stP = (st1, none) := by
    rw [hst1, ← h2.1]
  have hauth : applyAuthChanges b lt stP = (st1, none) := by
    rw [applyAuthChanges_eq b lt stP ms hla]
    exact hmounts
  have hA1 : ApplyChanges b lt st = (st1, none) := by
    rw [ApplyChanges_policy_ok b lt st stP h1, hauth]
  have hfixP : policyFixed (buildMap entries) st1.policies := by
    have hpols : st1.policies = stP.policies := h2.2.1
    rw [hpols, hstP]
    exact policyFixed_after _ _ (buildMap_nodupKeys entries)
  have hrun2P : applyPolicyChanges b lt st1 = (st1, none) :=
    applyPolicyChanges_of_fixed b lt st1 entries hlp hput hdir hfixP
  have hrun2A : applyAuthMounts b lt ms st1 = (st1, none) :=
    applyAuthMounts_fixed b lt ms st1 hmOk hw h2.2.2
  have hauth2 : applyAuthChanges b lt st1 = (st1, none) := by
    rw [applyAuthChanges_eq b lt st1 ms hla]
    exact hrun2A
  refine ⟨by rw [hA1], ?_⟩
  rw [hA1]
  show ApplyChanges b lt st1 = (st1, none)
  rw [ApplyChanges_policy_ok b lt st1 st1 hrun2P, hauth2]

/-- C8 witness: the fixture apply is idempotent. -/
theorem applyChanges_idempotent_witness :
    (ApplyChanges bOk ltEx stEx).2 = none ∧
    ApplyChanges bOk ltEx (ApplyChanges bOk ltEx stEx).1 =
      ((ApplyChanges bOk ltEx stEx).1, none) :=
  applyChanges_idempotent bOk ltEx stEx [("p1", "bodyA"), ("p2", "bodyB")]
    bOk_allOk rfl ltEx_noWalkFail

end HVResult
